import Mathlib

/-!
Shallow embedding of the core logic of `pdf_chapter_splitter.py`:
the filename sanitizer, the outline-entry filter, the chapter-range
resolver and the chapter writer, together with theorems settling the
specification claims about them.

Conventions of the embedding:
  * an outline node is a pair of an optional title and an optional
    destination page (a destination of `none` models
    `get_destination_page_number` raising);
  * the extracted entries are `(title, page)` pairs with `page : Nat`;
  * resolved ranges are `(title, start, end)` triples over `Int`
    (Python ints; `end` can be `-1` when the next entry's page is `0`);
  * the writer is modelled as a pure function returning the Python
    return value (`Except Unit Nat`: `.error` models an uncaught
    exception aborting the call) together with the ordered trace of
    files written before returning or raising, each trace entry being
    `(position, title, copied page indices)`;
  * the destination directory is a map from filename to file content,
    and applying a write trace to it models the filesystem effect.
-/

namespace PdfSplit

/-- The reserved characters of the regex `[\\/*?:"<>|]` in
`sanitize_filename`. -/
def reservedChar (c : Char) : Bool :=
  c == '\\' || c == '/' || c == '*' || c == '?' || c == ':' ||
  c == '"' || c == '<' || c == '>' || c == '|'

/-- Whitespace as stripped by Python's `str.strip()` (ASCII part). -/
def pySpace (c : Char) : Bool :=
  c == ' ' || c == '\t' || c == '\n' || c == '\r' || c == '\u000B' || c == '\u000C'

/-- Python `str.strip()`: drop whitespace from both ends. -/
def pyStrip (l : List Char) : List Char :=
  ((l.dropWhile pySpace).reverse.dropWhile pySpace).reverse

/-- `sanitize_filename`: `re.sub` of every reserved character by an
underscore, then `.strip()`. -/
def sanitize_filename (name : String) : String :=
  String.mk (pyStrip (name.data.map (fun c => if reservedChar c then '_' else c)))

/-- No character of the string is in the reserved set. -/
def noReserved (s : String) : Bool :=
  s.data.all (fun c => !(reservedChar c))

/-- Neither the first nor the last character is whitespace. -/
def noEdgeSpace (s : String) : Bool :=
  (match s.data.head? with
   | none => true
   | some c => !(pySpace c)) &&
  (match s.data.getLast? with
   | none => true
   | some c => !(pySpace c))

theorem mem_pyStrip {c : Char} {l : List Char} (h : c ∈ pyStrip l) : c ∈ l := by
  unfold pyStrip at h
  rw [List.mem_reverse] at h
  have h1 := (List.dropWhile_sublist pySpace).subset h
  rw [List.mem_reverse] at h1
  exact (List.dropWhile_sublist pySpace).subset h1

theorem head?_dropWhile_spec {p : Char → Bool} {c : Char} :
    ∀ l : List Char, (l.dropWhile p).head? = some c → p c = false := by
  intro l
  induction l with
  | nil => intro h; simp at h
  | cons a l ih =>
    intro h
    rw [List.dropWhile_cons] at h
    by_cases hp : p a = true
    · rw [if_pos hp] at h; exact ih h
    · rw [if_neg hp] at h
      simp at h
      rw [← h]
      exact Bool.eq_false_iff.mpr hp

theorem pyStrip_head {c : Char} {l : List Char}
    (h : (pyStrip l).head? = some c) : pySpace c = false := by
  unfold pyStrip at h
  rw [List.head?_reverse] at h
  -- the inner `dropWhile` is a suffix of its argument, so its last
  -- element is the last element of the argument when nonempty
  obtain ⟨t, ht⟩ := List.dropWhile_suffix (l := (l.dropWhile pySpace).reverse) pySpace
  have hne : (List.dropWhile pySpace (l.dropWhile pySpace).reverse) ≠ [] := by
    intro hnil; rw [hnil] at h; simp at h
  have : ((l.dropWhile pySpace).reverse).getLast? = some c := by
    rw [← ht, List.getLast?_append, h]; rfl
  rw [List.getLast?_reverse] at this
  exact head?_dropWhile_spec _ this

theorem pyStrip_last {c : Char} {l : List Char}
    (h : (pyStrip l).getLast? = some c) : pySpace c = false := by
  unfold pyStrip at h
  rw [List.getLast?_reverse] at h
  exact head?_dropWhile_spec _ h

/-- C5: `sanitize_filename` replaces each of the nine reserved
characters by an underscore and strips leading/trailing whitespace:
its output never contains a reserved character and never starts or
ends with whitespace, and the title "Ch:1/Intro?" sanitizes to
"Ch_1_Intro_".  (As a Lean function it is total and deterministic.) -/
theorem sanitize_filename_spec :
    (∀ s : String, noReserved (sanitize_filename s) = true ∧
      noEdgeSpace (sanitize_filename s) = true) ∧
    sanitize_filename "Ch:1/Intro?" = "Ch_1_Intro_" := by
  constructor
  · intro s
    constructor
    · unfold noReserved
      rw [List.all_eq_true]
      intro c hc
      have hc' : c ∈ pyStrip (s.data.map (fun c => if reservedChar c then '_' else c)) := hc
      have hmem := mem_pyStrip hc'
      rw [List.mem_map] at hmem
      obtain ⟨a, _, ha⟩ := hmem
      by_cases hr : reservedChar a = true
      · rw [if_pos hr] at ha
        rw [← ha]; decide
      · rw [if_neg hr] at ha
        rw [← ha]
        simp [Bool.eq_false_iff.mpr hr]
    · unfold noEdgeSpace
      rw [Bool.and_eq_true]
      constructor
      · cases hh : (sanitize_filename s).data.head? with
        | none => rfl
        | some c =>
          have := pyStrip_head (l := s.data.map (fun c => if reservedChar c then '_' else c)) hh
          simp [this]
      · cases hh : (sanitize_filename s).data.getLast? with
        | none => rfl
        | some c =>
          have := pyStrip_last (l := s.data.map (fun c => if reservedChar c then '_' else c)) hh
          simp [this]
  · rfl

/-- An outline node as probed by `get_chapter_ranges`: `title` is the
node's `title` attribute (absent or empty nodes are skipped), `dest`
is the result of `reader.get_destination_page_number` (`none` models
the call raising, in which case the node is skipped). -/
structure OutlineItem where
  title : Option String
  dest : Option Nat

/-- The filtering loop of `get_chapter_ranges` (lines 33-42): keep the
`(title, page)` pair of every node with a truthy title and a
resolvable destination page. -/
def extractRaw (outlines : List OutlineItem) : List (String × Nat) :=
  outlines.filterMap (fun it =>
    match it.title with
    | none => none
    | some t => if t = "" then none else it.dest.map (fun p => (t, p)))

/-- `raw.sort(key=lambda x: x[1])`: Python's sort is a stable sort by
the key, and the stable sort by a key is uniquely determined, so the
stable `insertionSort` by the page component embeds it exactly. -/
def sortEntries (entries : List (String × Nat)) : List (String × Nat) :=
  entries.insertionSort (fun a b => a.2 ≤ b.2)

/-- The range-building loop of `get_chapter_ranges` (lines 47-50):
`end = raw[i+1][1] - 1` if a next entry exists, else `total - 1`. -/
def rangesOf : List (String × Nat) → Nat → List (String × Int × Int)
  | [], _ => []
  | [(t, s)], total => [(t, (s : Int), (total : Int) - 1)]
  | (t, s) :: next :: rest, total =>
    (t, (s : Int), (next.2 : Int) - 1) :: rangesOf (next :: rest) total

/-- `get_chapter_ranges` on already-extracted entries: sort by page,
then build the `(title, start, end)` list against `total` pages. -/
def get_chapter_ranges (entries : List (String × Nat)) (total : Nat) :
    List (String × Int × Int) :=
  rangesOf (sortEntries entries) total

/-- The whole of `get_chapter_ranges` from the outline node list. -/
def get_chapter_ranges_of_outline (outlines : List OutlineItem) (total : Nat) :
    List (String × Int × Int) :=
  get_chapter_ranges (extractRaw outlines) total

/-- The value list of Python's `range(a, b)` over `Int`. -/
def intRange (a b : Int) : List Int :=
  (List.range (b - a).toNat).map (fun i => a + Int.ofNat i)

/-- The page indices claimed by a range list, in order: for each range
the inclusive span `start .. end`, concatenated. -/
def pagesList (rgs : List (String × Int × Int)) : List Int :=
  rgs.flatMap (fun r => intRange r.2.1 (r.2.2 + 1))

theorem rangesOf_length : ∀ (raw : List (String × Nat)) (total : Nat),
    (rangesOf raw total).length = raw.length := by
  intro raw total
  induction raw with
  | nil => rfl
  | cons a l ih =>
    cases l with
    | nil => rfl
    | cons b rest =>
      show ((a.1, (a.2 : Int), (b.2 : Int) - 1) :: rangesOf (b :: rest) total).length = _
      simp [ih]

theorem rangesOf_starts : ∀ (raw : List (String × Nat)) (total : Nat),
    (rangesOf raw total).map (fun r => r.2.1) = raw.map (fun e => (e.2 : Int)) := by
  intro raw total
  induction raw with
  | nil => rfl
  | cons a l ih =>
    cases l with
    | nil => rfl
    | cons b rest =>
      show (_ :: (rangesOf (b :: rest) total).map (fun r => r.2.1)) = _
      rw [ih]
      rfl

theorem rangesOf_last : ∀ (raw : List (String × Nat)) (total : Nat), raw ≠ [] →
    (rangesOf raw total).getLast?.map (fun r => r.2.2) = some ((total : Int) - 1) := by
  intro raw total hne
  induction raw with
  | nil => exact absurd rfl hne
  | cons a l ih =>
    cases l with
    | nil => rfl
    | cons b rest =>
      show (((a.1, (a.2 : Int), (b.2 : Int) - 1) :: rangesOf (b :: rest) total).getLast?).map _ = _
      have hnil : rangesOf (b :: rest) total ≠ [] := by
        intro hnil
        have := rangesOf_length (b :: rest) total
        rw [hnil] at this
        simp at this
      obtain ⟨x, xs, hx⟩ := List.exists_cons_of_ne_nil hnil
      rw [hx, List.getLast?_cons_cons, ← hx]
      exact ih (by simp)

theorem rangesOf_consec : ∀ (raw : List (String × Nat)) (total : Nat) (i : Nat)
    (r r' : String × Int × Int),
    (rangesOf raw total)[i]? = some r → (rangesOf raw total)[i + 1]? = some r' →
    r.2.2 = r'.2.1 - 1 := by
  intro raw
  induction raw with
  | nil => intro total i r r' h _; simp [rangesOf] at h
  | cons a l ih =>
    obtain ⟨t, s⟩ := a
    cases l with
    | nil =>
      intro total i r r' _ h'
      cases i <;> simp [rangesOf] at h'
    | cons b rest =>
      intro total i r r' h h'
      obtain ⟨t', s'⟩ := b
      rw [show rangesOf ((t, s) :: (t', s') :: rest) total
            = (t, (s : Int), (s' : Int) - 1) :: rangesOf ((t', s') :: rest) total from rfl]
        at h h'
      cases i with
      | zero =>
        rw [List.getElem?_cons_zero] at h
        rw [List.getElem?_cons_succ] at h'
        have hr : r = (t, (s : Int), (s' : Int) - 1) := by
          injection h with h; exact h.symm
        have hr' : r'.2.1 = (s' : Int) := by
          cases rest with
          | nil =>
            rw [show rangesOf [(t', s')] total
                  = [(t', (s' : Int), (total : Int) - 1)] from rfl] at h'
            rw [List.getElem?_cons_zero] at h'
            injection h' with h'
            rw [← h']
          | cons c rest' =>
            rw [show rangesOf ((t', s') :: c :: rest') total
                  = (t', (s' : Int), (c.2 : Int) - 1) :: rangesOf (c :: rest') total from rfl]
              at h'
            rw [List.getElem?_cons_zero] at h'
            injection h' with h'
            rw [← h']
        rw [hr, hr']
      | succ i =>
        rw [List.getElem?_cons_succ] at h h'
        exact ih total i r r' h h'

/-- C10: consecutive ranges produced by the resolver satisfy
`end_i = start_(i+1) - 1` exactly; consequently, when two entries are
tied on the same page, the earlier tied range has `end = start - 1`. -/
theorem ranges_consecutive (entries : List (String × Nat)) (total : Nat)
    (i : Nat) (r r' : String × Int × Int)
    (h : (get_chapter_ranges entries total)[i]? = some r)
    (h' : (get_chapter_ranges entries total)[i + 1]? = some r') :
    r.2.2 = r'.2.1 - 1 ∧ (r.2.1 = r'.2.1 → r.2.2 = r.2.1 - 1) := by
  have hmain := rangesOf_consec (sortEntries entries) total i r r' h h'
  exact ⟨hmain, fun he => by rw [hmain, he]⟩

/-- Witness for C10 at entries `[("A", 0), ("B", 0)]`, 3 pages: the
resolver yields `[("A", 0, -1), ("B", 0, 2)]`, whose first (tied)
range has `end = start - 1 = -1`. -/
theorem ranges_consecutive_witness :
    ((-1 : Int) = 0 - 1) ∧ (((0 : Int) = 0) → (-1 : Int) = 0 - 1) :=
  ranges_consecutive [("A", 0), ("B", 0)] 3 0 ("A", 0, -1) ("B", 0, 2)
    (by decide) (by decide)

/-- C7: `get_chapter_ranges` sorts the extracted entries ascending by
page, the sort is stable on ties (the subsequence of entries with any
given page number is preserved), and resolution factors through this
sort deterministically. -/
theorem sort_stable (entries : List (String × Nat)) :
    List.Pairwise (fun a b : String × Nat => a.2 ≤ b.2) (sortEntries entries) ∧
    (∀ p : Nat, (sortEntries entries).filter (fun e => e.2 == p)
        = entries.filter (fun e => e.2 == p)) ∧
    (∀ total : Nat, get_chapter_ranges entries total = rangesOf (sortEntries entries) total) := by
  haveI ht : IsTotal (String × Nat) (fun a b : String × Nat => a.2 ≤ b.2) :=
    ⟨fun a b => Nat.le_total a.2 b.2⟩
  haveI htr : IsTrans (String × Nat) (fun a b : String × Nat => a.2 ≤ b.2) :=
    ⟨fun _ _ _ h1 h2 => Nat.le_trans h1 h2⟩
  refine ⟨List.sorted_insertionSort _ _, fun p => ?_, fun _ => rfl⟩
  have hmemkey : ∀ e ∈ entries.filter (fun e : String × Nat => e.2 == p), e.2 = p := by
    intro e he
    have := (List.mem_filter.mp he).2
    simpa using this
  have hpw : List.Pairwise (fun a b : String × Nat => a.2 ≤ b.2)
      (entries.filter (fun e => e.2 == p)) := by
    apply List.pairwise_of_forall_mem_list
    intro a ha b hb
    rw [hmemkey a ha, hmemkey b hb]
  have hsub : (entries.filter (fun e => e.2 == p)).Sublist (sortEntries entries) :=
    List.sublist_insertionSort hpw (List.filter_sublist entries)
  have hsub2 : ((entries.filter (fun e => e.2 == p)).filter (fun e => e.2 == p)).Sublist
      ((sortEntries entries).filter (fun e => e.2 == p)) :=
    hsub.filter _
  have hself : ((entries.filter (fun e : String × Nat => e.2 == p)).filter (fun e => e.2 == p))
      = entries.filter (fun e => e.2 == p) :=
    List.filter_eq_self.mpr (fun a ha => (List.mem_filter.mp ha).2)
  rw [hself] at hsub2
  have hlen : (entries.filter (fun e => e.2 == p)).length
      = ((sortEntries entries).filter (fun e => e.2 == p)).length :=
    ((List.perm_insertionSort (fun a b : String × Nat => a.2 ≤ b.2) entries).filter _).length_eq.symm
  exact (hsub2.eq_of_length hlen).symm

theorem intRange_append (a m b : Int) (h1 : a ≤ m) (h2 : m ≤ b) :
    intRange a m ++ intRange m b = intRange a b := by
  unfold intRange
  have hx : (b - a).toNat = (m - a).toNat + (b - m).toNat := by
    rw [← Int.toNat_add (by omega) (by omega)]
    congr 1
    omega
  rw [hx, List.range_add, List.map_append, List.map_map]
  congr 1
  have hfun : ((fun i => a + Int.ofNat i) ∘ fun x => (m - a).toNat + x)
      = fun i : Nat => m + Int.ofNat i := by
    funext x
    show a + (((m - a).toNat + x : Nat) : Int) = m + ((x : Nat) : Int)
    omega
  rw [hfun]

theorem sortEntries_sorted (entries : List (String × Nat)) :
    List.Pairwise (fun a b : String × Nat => a.2 ≤ b.2) (sortEntries entries) := by
  haveI : IsTotal (String × Nat) (fun a b : String × Nat => a.2 ≤ b.2) :=
    ⟨fun a b => Nat.le_total a.2 b.2⟩
  haveI : IsTrans (String × Nat) (fun a b : String × Nat => a.2 ≤ b.2) :=
    ⟨fun _ _ _ h1 h2 => Nat.le_trans h1 h2⟩
  exact List.sorted_insertionSort _ _

theorem sortEntries_perm (entries : List (String × Nat)) :
    (sortEntries entries).Perm entries :=
  List.perm_insertionSort _ _

theorem sortEntries_pairwise_lt (entries : List (String × Nat))
    (hnd : (entries.map (fun e => e.2)).Nodup) :
    List.Pairwise (fun a b : String × Nat => a.2 < b.2) (sortEntries entries) := by
  have hle := sortEntries_sorted entries
  have hnd' : ((sortEntries entries).map (fun e => e.2)).Nodup :=
    ((sortEntries_perm entries).map _).nodup_iff.mpr hnd
  have hne : List.Pairwise (fun a b : String × Nat => a.2 ≠ b.2) (sortEntries entries) :=
    List.pairwise_map.mp hnd'
  exact (hle.and hne).imp (fun h => Nat.lt_of_le_of_ne h.1 h.2)

theorem sorted_head_zero : ∀ l : List (String × Nat),
    List.Pairwise (fun a b : String × Nat => a.2 ≤ b.2) l →
    0 ∈ l.map (fun e => e.2) → ∃ t rest, l = (t, 0) :: rest := by
  intro l hpw h0
  cases l with
  | nil => simp at h0
  | cons a rest =>
    obtain ⟨t, s⟩ := a
    rw [List.map_cons, List.mem_cons] at h0
    rcases h0 with h | h
    · exact ⟨t, rest, by rw [h]⟩
    · rw [List.mem_map] at h
      obtain ⟨e, he, he0⟩ := h
      have hs := (List.pairwise_cons.mp hpw).1 e he
      rw [he0] at hs
      have : s = 0 := Nat.le_zero.mp hs
      exact ⟨t, rest, by rw [this]⟩

theorem rangesOf_pages : ∀ (rest : List (String × Nat)) (t : String) (s total : Nat),
    List.Chain' (fun a b : String × Nat => a.2 < b.2) ((t, s) :: rest) →
    (∀ e ∈ (t, s) :: rest, e.2 < total) →
    pagesList (rangesOf ((t, s) :: rest) total) = intRange (s : Int) (total : Int) := by
  intro rest
  induction rest with
  | nil =>
    intro t s total _ _
    show intRange (s : Int) (((total : Int) - 1) + 1) ++ ([] : List Int)
        = intRange (s : Int) (total : Int)
    rw [List.append_nil]
    congr 1
    omega
  | cons b rest ih =>
    intro t s total hch hb
    obtain ⟨t', s'⟩ := b
    have hlt : s < s' := (List.chain'_cons.mp hch).1
    have hch' := (List.chain'_cons.mp hch).2
    have hb' : ∀ e ∈ (t', s') :: rest, e.2 < total := fun e he => hb e (List.mem_cons_of_mem _ he)
    have hs' : s' < total := hb' (t', s') (List.mem_cons_self _ _)
    show intRange (s : Int) (((s' : Int) - 1) + 1) ++ pagesList (rangesOf ((t', s') :: rest) total)
        = intRange (s : Int) (total : Int)
    rw [ih t' s' total hch' hb']
    rw [show ((s' : Int) - 1) + 1 = (s' : Int) by omega]
    exact intRange_append _ _ _ (by omega) (by omega)

theorem rangesOf_invariant : ∀ (raw : List (String × Nat)) (total : Nat),
    List.Chain' (fun a b : String × Nat => a.2 < b.2) raw →
    (∀ e ∈ raw, e.2 < total) →
    ∀ r ∈ rangesOf raw total, 0 ≤ r.2.1 ∧ r.2.1 ≤ r.2.2 ∧ r.2.2 < (total : Int) := by
  intro raw
  induction raw with
  | nil => intro total _ _ r hr; simp [rangesOf] at hr
  | cons a l ih =>
    obtain ⟨t, s⟩ := a
    cases l with
    | nil =>
      intro total _ hb r hr
      have hs : s < total := hb (t, s) (List.mem_cons_self _ _)
      rw [show rangesOf [(t, s)] total = [(t, (s : Int), (total : Int) - 1)] from rfl] at hr
      rw [List.mem_singleton] at hr
      rw [hr]
      refine ⟨?_, ?_, ?_⟩
      · show (0 : Int) ≤ (s : Int)
        omega
      · show (s : Int) ≤ (total : Int) - 1
        omega
      · show (total : Int) - 1 < (total : Int)
        omega
    | cons b rest =>
      intro total hch hb r hr
      obtain ⟨t', s'⟩ := b
      have hlt : s < s' := (List.chain'_cons.mp hch).1
      have hs' : s' < total := hb (t', s') (List.mem_cons_of_mem _ (List.mem_cons_self _ _))
      rw [show rangesOf ((t, s) :: (t', s') :: rest) total
            = (t, (s : Int), (s' : Int) - 1) :: rangesOf ((t', s') :: rest) total from rfl] at hr
      rw [List.mem_cons] at hr
      rcases hr with hr | hr
      · rw [hr]
        refine ⟨?_, ?_, ?_⟩
        · show (0 : Int) ≤ (s : Int)
          omega
        · show (s : Int) ≤ (s' : Int) - 1
          omega
        · show (s' : Int) - 1 < (total : Int)
          omega
      · exact ih total (List.chain'_cons.mp hch).2
          (fun e he => hb e (List.mem_cons_of_mem _ he)) r hr

/-- C1 (amended): for every entry list whose pages are pairwise
distinct, all below the total page count `T`, and including page `0`,
`get_chapter_ranges` produces exactly `k` ranges with strictly
increasing starts whose inclusive intervals partition `[0, T-1]` in
order, and whose last range ends at `T - 1`. -/
theorem get_chapter_ranges_partition (entries : List (String × Nat)) (T : Nat)
    (hnd : (entries.map (fun e => e.2)).Nodup)
    (hlt : ∀ e ∈ entries, e.2 < T)
    (h0 : 0 ∈ entries.map (fun e => e.2)) :
    (get_chapter_ranges entries T).length = entries.length ∧
    List.Pairwise (fun a b : String × Int × Int => a.2.1 < b.2.1) (get_chapter_ranges entries T) ∧
    pagesList (get_chapter_ranges entries T) = intRange 0 (T : Int) ∧
    (get_chapter_ranges entries T).getLast?.map (fun r => r.2.2) = some ((T : Int) - 1) := by
  have hperm := sortEntries_perm entries
  have hlt' : ∀ e ∈ sortEntries entries, e.2 < T := fun e he => hlt e (hperm.subset he)
  have hstrict := sortEntries_pairwise_lt entries hnd
  have h0' : 0 ∈ (sortEntries entries).map (fun e => e.2) := ((hperm.map _).mem_iff).mpr h0
  obtain ⟨t, rest, hsort⟩ := sorted_head_zero _ (sortEntries_sorted entries) h0'
  refine ⟨?_, ?_, ?_, ?_⟩
  · show (rangesOf (sortEntries entries) T).length = entries.length
    rw [rangesOf_length]
    exact hperm.length_eq
  · have hcast : List.Pairwise (fun a b : Int => a < b)
        ((sortEntries entries).map (fun e => (e.2 : Int))) :=
      List.pairwise_map.mpr (hstrict.imp (fun h => by exact_mod_cast h))
    rw [← rangesOf_starts (sortEntries entries) T] at hcast
    exact List.pairwise_map.mp hcast
  · show pagesList (rangesOf (sortEntries entries) T) = _
    rw [hsort]
    have hch : List.Chain' (fun a b : String × Nat => a.2 < b.2) ((t, 0) :: rest) := by
      rw [← hsort]; exact hstrict.chain'
    have hb : ∀ e ∈ (t, 0) :: rest, e.2 < T := by rw [← hsort]; exact hlt'
    rw [rangesOf_pages rest t 0 T hch hb]
    norm_num
  · show (rangesOf (sortEntries entries) T).getLast?.map _ = _
    apply rangesOf_last
    rw [hsort]
    simp

/-- Counterexample to C1 as stated: at entries `[("A", 1)]` with
total page count 2 the resolver returns `[("A", 1, 1)]`, whose
intervals do not cover page 0, so they do not partition `[0, 1]`. -/
theorem get_chapter_ranges_partition_cex :
    ¬ ((get_chapter_ranges [("A", 1)] 2).length = 1 ∧
       List.Pairwise (fun a b : String × Int × Int => a.2.1 < b.2.1)
         (get_chapter_ranges [("A", 1)] 2) ∧
       pagesList (get_chapter_ranges [("A", 1)] 2) = intRange 0 ((2 : Nat) : Int) ∧
       (get_chapter_ranges [("A", 1)] 2).getLast?.map (fun r => r.2.2)
         = some (((2 : Nat) : Int) - 1)) := by
  intro h
  exact absurd h.2.2.1 (by decide)

/-- Witness for the amended C1 at entries `[("A", 0), ("B", 2)]` with
4 pages. -/
theorem get_chapter_ranges_partition_witness :
    (get_chapter_ranges [("A", 0), ("B", 2)] 4).length = 2 ∧
    List.Pairwise (fun a b : String × Int × Int => a.2.1 < b.2.1)
      (get_chapter_ranges [("A", 0), ("B", 2)] 4) ∧
    pagesList (get_chapter_ranges [("A", 0), ("B", 2)] 4) = intRange 0 ((4 : Nat) : Int) ∧
    (get_chapter_ranges [("A", 0), ("B", 2)] 4).getLast?.map (fun r => r.2.2)
      = some (((4 : Nat) : Int) - 1) := by
  have h := get_chapter_ranges_partition [("A", 0), ("B", 2)] 4 (by decide) (by decide) (by decide)
  exact ⟨h.1, h.2.1, h.2.2.1, h.2.2.2⟩

/-- C2 (amended): when the entries' pages are pairwise distinct and
all below the total page count, every resolved range satisfies the
invariant `0 ≤ start ≤ end < total_pages`. -/
theorem get_chapter_ranges_invariant (entries : List (String × Nat)) (T : Nat)
    (hnd : (entries.map (fun e => e.2)).Nodup)
    (hlt : ∀ e ∈ entries, e.2 < T) :
    ∀ r ∈ get_chapter_ranges entries T, 0 ≤ r.2.1 ∧ r.2.1 ≤ r.2.2 ∧ r.2.2 < (T : Int) := by
  have hperm := sortEntries_perm entries
  exact rangesOf_invariant (sortEntries entries) T
    (sortEntries_pairwise_lt entries hnd).chain'
    (fun e he => hlt e (hperm.subset he))

/-- Counterexample to C2 as stated: a corrupt outline pointing past
the last page (entries `[("A", 3)]`, 2 pages) resolves to
`[("A", 3, 1)]`, which violates `start ≤ end`. -/
theorem get_chapter_ranges_invariant_cex :
    ¬ (∀ r ∈ get_chapter_ranges [("A", 3)] 2,
        0 ≤ r.2.1 ∧ r.2.1 ≤ r.2.2 ∧ r.2.2 < ((2 : Nat) : Int)) := by
  decide

/-- Witness for the amended C2 at entries `[("X", 1), ("Y", 3)]` with
5 pages, at the resolved range `("X", 1, 2)`. -/
theorem get_chapter_ranges_invariant_witness :
    (0 : Int) ≤ 1 ∧ (1 : Int) ≤ 2 ∧ (2 : Int) < ((5 : Nat) : Int) :=
  get_chapter_ranges_invariant [("X", 1), ("Y", 3)] 5 (by decide) (by decide)
    ("X", 1, 2) (by decide)

/-- Python list indexing `reader.pages[p]` where the reader has
`total` pages: a nonnegative index below `total` resolves to itself, a
negative index at least `-total` wraps around, anything else raises
`IndexError` (modelled as `.error`). -/
def pageIndex (total : Nat) (p : Int) : Except Unit Nat :=
  if 0 ≤ p ∧ p < (total : Int) then .ok p.toNat
  else if -(total : Int) ≤ p ∧ p < 0 then .ok (p + (total : Int)).toNat
  else .error ()

/-- The page-copy loop `for p in range(start, end+1):
writer.add_page(reader.pages[p])`: the accessed page indices in
order, aborting at the first out-of-range access. -/
def pagesSeq (total : Nat) : List Int → Except Unit (List Nat)
  | [] => .ok []
  | p :: ps =>
    match pageIndex total p with
    | .error e => .error e
    | .ok q =>
      match pagesSeq total ps with
      | .error e => .error e
      | .ok qs => .ok (q :: qs)

/-- The pages copied for one range `(title, start, end)`. -/
def rangePages (total : Nat) (s e : Int) : Except Unit (List Nat) :=
  pagesSeq total (intRange s (e + 1))

/-- The output filename `f"{num:02d}_{sanitize_filename(title)}.pdf"`. -/
def fileName (num : Nat) (title : String) : String :=
  (if num < 10 then "0" ++ toString num else toString num) ++ "_" ++
    sanitize_filename title ++ ".pdf"

/-- The main loop of `write_chapters` over the selected indices:
the Python return value (the final `count`, or `.error` for an
uncaught exception) paired with the ordered trace of files written
before returning or raising; a trace entry is
`(output position, title, page indices copied)`. -/
def writeLoop (total : Nat) (ranges : List (String × Int × Int)) :
    List Nat → Nat → Except Unit Nat × List (Nat × String × List Nat)
  | [], _ => (.ok 0, [])
  | idx :: rest, num =>
    match ranges[idx]? with
    | none => (.error (), [])
    | some r =>
      match rangePages total r.2.1 r.2.2 with
      | .error e => (.error e, [])
      | .ok pages =>
        match writeLoop total ranges rest (num + 1) with
        | (.ok c, ws) => (.ok (c + 1), (num, r.1, pages) :: ws)
        | (.error e, ws) => (.error e, (num, r.1, pages) :: ws)

/-- `write_chapters(ranges, reader, output_dir, selected_idx)` for a
reader with `total` pages: `selected = list(range(len(ranges)))` when
`selected_idx is None`, then one write per selected index with the
output position counting from 1. -/
def write_chapters (ranges : List (String × Int × Int)) (total : Nat)
    (selected_idx : Option (List Nat)) :
    Except Unit Nat × List (Nat × String × List Nat) :=
  writeLoop total ranges (selected_idx.getD (List.range ranges.length)) 1

/-- The output directory: a map from filename to written content. -/
def FS : Type := String → Option (List Nat)

/-- `open(output_dir / fname, 'wb')` followed by `writer.write(f)`:
create the file or overwrite an existing one of the same name. -/
def setFile (fs : FS) (name : String) (content : List Nat) : FS :=
  fun m => if m = name then some content else fs m

/-- Apply a write trace to the directory, in order. -/
def runWrites (ws : List (Nat × String × List Nat)) (fs : FS) : FS :=
  ws.foldl (fun acc w => setFile acc (fileName w.1 w.2.1) w.2.2) fs

theorem runWrites_cons (w : Nat × String × List Nat) (ws : List (Nat × String × List Nat))
    (fs : FS) :
    runWrites (w :: ws) fs = runWrites ws (setFile fs (fileName w.1 w.2.1) w.2.2) := rfl

theorem runWrites_not_mem (ws : List (Nat × String × List Nat)) (fs : FS) (m : String)
    (h : ∀ w ∈ ws, fileName w.1 w.2.1 ≠ m) : runWrites ws fs m = fs m := by
  induction ws generalizing fs with
  | nil => rfl
  | cons w ws ih =>
    rw [runWrites_cons]
    rw [ih _ (fun x hx => h x (List.mem_cons_of_mem _ hx))]
    show (if m = fileName w.1 w.2.1 then some w.2.2 else fs m) = fs m
    rw [if_neg (fun he => (h w (List.mem_cons_self _ _)) he.symm)]

theorem runWrites_mem (ws : List (Nat × String × List Nat)) (m : String)
    (h : ∃ w ∈ ws, fileName w.1 w.2.1 = m) :
    ∀ fs fs' : FS, runWrites ws fs m = runWrites ws fs' m := by
  induction ws with
  | nil => obtain ⟨w, hw, _⟩ := h; exact absurd hw (List.not_mem_nil _)
  | cons w ws ih =>
    intro fs fs'
    rw [runWrites_cons, runWrites_cons]
    by_cases hmem : ∃ x ∈ ws, fileName x.1 x.2.1 = m
    · exact ih hmem _ _
    · have hw : fileName w.1 w.2.1 = m := by
        obtain ⟨x, hx, hxm⟩ := h
        rcases List.mem_cons.mp hx with hx | hx
        · rw [← hx]; exact hxm
        · exact absurd ⟨x, hx, hxm⟩ hmem
      have hnot : ∀ x ∈ ws, fileName x.1 x.2.1 ≠ m :=
        fun x hx he => hmem ⟨x, hx, he⟩
      rw [runWrites_not_mem ws _ m hnot, runWrites_not_mem ws _ m hnot]
      show (if m = fileName w.1 w.2.1 then some w.2.2 else fs m)
          = (if m = fileName w.1 w.2.1 then some w.2.2 else fs' m)
      rw [if_pos hw.symm, if_pos hw.symm]

/-- C9: the chapter writer is idempotent against the output
directory: re-applying the write trace of an identical second run to
the already-written directory leaves it unchanged, because each write
overwrites the existing file of the same name rather than duplicating
output (and the writer, a pure function of its inputs, returns the
same count on both runs). -/
theorem write_chapters_idempotent (rgs : List (String × Int × Int)) (total : Nat)
    (sel : Option (List Nat)) (fs : FS) :
    runWrites (write_chapters rgs total sel).2
        (runWrites (write_chapters rgs total sel).2 fs)
      = runWrites (write_chapters rgs total sel).2 fs := by
  generalize (write_chapters rgs total sel).2 = ws
  funext m
  by_cases h : ∃ w ∈ ws, fileName w.1 w.2.1 = m
  · exact runWrites_mem ws m h _ _
  · push_neg at h
    exact runWrites_not_mem ws _ m h

theorem writeLoop_count (total : Nat) (rgs : List (String × Int × Int)) :
    ∀ (sel : List Nat) (num c : Nat) (ws : List (Nat × String × List Nat)),
      writeLoop total rgs sel num = (.ok c, ws) → c = sel.length := by
  intro sel
  induction sel with
  | nil =>
    intro num c ws h
    have h1 : Except.ok (ε := Unit) 0 = .ok c := congrArg Prod.fst h
    injection h1 with h1
    exact h1.symm
  | cons idx rest ih =>
    intro num c ws h
    unfold writeLoop at h
    split at h
    · simp at h
    · split at h
      · simp at h
      · split at h
        · rename_i c' ws' hrec
          have h1 : Except.ok (ε := Unit) (c' + 1) = .ok c := congrArg Prod.fst h
          injection h1 with h1
          rw [← h1, ih (num + 1) c' ws' hrec]
          rfl
        · simp at h

/-- C6: whenever the chapter writer returns a count, that count equals
the length of the supplied selection, and equals the length of the
range list when no selection is supplied. -/
theorem write_chapters_count :
    (∀ (rgs : List (String × Int × Int)) (total : Nat) (sel : List Nat)
        (c : Nat) (ws : List (Nat × String × List Nat)),
      write_chapters rgs total (some sel) = (.ok c, ws) → c = sel.length) ∧
    (∀ (rgs : List (String × Int × Int)) (total : Nat)
        (c : Nat) (ws : List (Nat × String × List Nat)),
      write_chapters rgs total none = (.ok c, ws) → c = rgs.length) := by
  constructor
  · intro rgs total sel c ws h
    exact writeLoop_count total rgs sel 1 c ws h
  · intro rgs total c ws h
    have := writeLoop_count total rgs (List.range rgs.length) 1 c ws h
    rw [this, List.length_range]

/-- Witness for C6: one range, selection `[0]` gives count 1; no
selection over the same one-range list also gives count 1. -/
theorem write_chapters_count_witness :
    (1 : Nat) = [(0 : Nat)].length ∧
    (1 : Nat) = [(("A" : String), (0 : Int), (0 : Int))].length :=
  ⟨write_chapters_count.1 [("A", 0, 0)] 1 [0] 1 [(1, "A", [0])] rfl,
   write_chapters_count.2 [("A", 0, 0)] 1 1 [(1, "A", [0])] rfl⟩

/-- The page copy of a range succeeds (every accessed index is in
bounds). -/
def rangeOk (total : Nat) (r : String × Int × Int) : Bool :=
  (rangePages total r.2.1 r.2.2).isOk

/-- Every range of the list copies successfully. -/
def rangesOkB (total : Nat) (rs : List (String × Int × Int)) : Bool :=
  rs.all (rangeOk total)

/-- The pages copied for a range, defaulting to `[]` (only used under
a `rangeOk` hypothesis). -/
def pagesOf (total : Nat) (r : String × Int × Int) : List Nat :=
  ((rangePages total r.2.1 r.2.2).toOption).getD []

/-- Number a list from `n`: the writer's `enumerate(selected, start=1)`. -/
def numberFrom {α : Type} : Nat → List α → List (Nat × α)
  | _, [] => []
  | n, x :: xs => (n, x) :: numberFrom (n + 1) xs

/-- Every selected index resolves to a range that copies successfully. -/
def selOk (total : Nat) (rgs : List (String × Int × Int)) (sel : List Nat) : Bool :=
  sel.all (fun i =>
    match rgs[i]? with
    | some r => rangeOk total r
    | none => false)

theorem rangePages_eq_of_ok {total : Nat} {r : String × Int × Int}
    (h : rangeOk total r = true) :
    rangePages total r.2.1 r.2.2 = .ok (pagesOf total r) := by
  unfold rangeOk at h
  unfold pagesOf
  cases hp : rangePages total r.2.1 r.2.2 with
  | error e => rw [hp] at h; simp [Except.isOk, Except.toBool] at h
  | ok v => rfl

theorem rangePages_eq_of_err {total : Nat} {r : String × Int × Int}
    (h : rangeOk total r = false) :
    rangePages total r.2.1 r.2.2 = .error () := by
  unfold rangeOk at h
  cases hp : rangePages total r.2.1 r.2.2 with
  | error e => rfl
  | ok v => rw [hp] at h; simp [Except.isOk, Except.toBool] at h

theorem numberFrom_snd {α : Type} : ∀ (n : Nat) (xs : List α),
    (numberFrom n xs).map (fun w => w.2) = xs := by
  intro n xs
  induction xs generalizing n with
  | nil => rfl
  | cons x xs ih => simp [numberFrom, ih]

theorem filterMap_getElem_range {α : Type} : ∀ l : List α,
    (List.range l.length).filterMap (fun i => l[i]?) = l := by
  intro l
  induction l with
  | nil => rfl
  | cons a l ih =>
    rw [show (a :: l).length = l.length + 1 from rfl, List.range_succ_eq_map,
      List.filterMap_cons]
    simp only [List.getElem?_cons_zero]
    rw [List.filterMap_map]
    have hfun : ((fun i => (a :: l)[i]?) ∘ Nat.succ) = fun i : Nat => l[i]? := by
      funext i
      exact List.getElem?_cons_succ
    rw [hfun, ih]

theorem selOk_range {total : Nat} {rgs : List (String × Int × Int)}
    (h : rangesOkB total rgs = true) :
    selOk total rgs (List.range rgs.length) = true := by
  apply List.all_eq_true.mpr
  intro i hi
  have hi' : i < rgs.length := List.mem_range.mp hi
  show (match rgs[i]? with
        | some r => rangeOk total r
        | none => false) = true
  rw [List.getElem?_eq_getElem hi']
  exact List.all_eq_true.mp h _ (List.getElem_mem hi')

theorem writeLoop_ok (total : Nat) (rgs : List (String × Int × Int)) :
    ∀ (sel : List Nat) (num : Nat), selOk total rgs sel = true →
      writeLoop total rgs sel num
        = (.ok sel.length,
           numberFrom num ((sel.filterMap (fun i => rgs[i]?)).map
             (fun r => (r.1, pagesOf total r)))) := by
  intro sel
  induction sel with
  | nil => intro num _; rfl
  | cons idx rest ih =>
    intro num hsel
    have h1 : (match rgs[idx]? with
               | some r => rangeOk total r
               | none => false) = true :=
      List.all_eq_true.mp hsel idx (List.mem_cons_self _ _)
    have h2 : selOk total rgs rest = true :=
      List.all_eq_true.mpr (fun i hi => List.all_eq_true.mp hsel i (List.mem_cons_of_mem _ hi))
    cases hidx : rgs[idx]? with
    | none => rw [hidx] at h1; simp at h1
    | some r =>
      rw [hidx] at h1
      unfold writeLoop
      rw [hidx]
      simp only [rangePages_eq_of_ok h1, ih (num + 1) h2, List.filterMap_cons, hidx,
        List.map_cons, List.length_cons]
      rfl

/-- C8: under in-bounds ranges, writing the reversed range list
produces the reversed trace of `(title, page content)` pairs: each
title gets a file with the same copied pages as in the original
order, and only the numeric position (hence the filename prefix)
changes. -/
theorem write_chapters_order (rgs : List (String × Int × Int)) (total : Nat)
    (h : rangesOkB total rgs = true) :
    ((write_chapters rgs.reverse total none).2).map (fun w => w.2)
      = (((write_chapters rgs total none).2).map (fun w => w.2)).reverse := by
  have hrev : rangesOkB total rgs.reverse = true := by
    unfold rangesOkB at h ⊢
    rw [List.all_reverse]
    exact h
  have e1 : write_chapters rgs.reverse total none
      = (.ok (List.range rgs.reverse.length).length,
         numberFrom 1 (rgs.reverse.map (fun r => (r.1, pagesOf total r)))) := by
    show writeLoop total rgs.reverse (List.range rgs.reverse.length) 1 = _
    rw [writeLoop_ok total rgs.reverse _ 1 (selOk_range hrev), filterMap_getElem_range]
  have e2 : write_chapters rgs total none
      = (.ok (List.range rgs.length).length,
         numberFrom 1 (rgs.map (fun r => (r.1, pagesOf total r)))) := by
    show writeLoop total rgs (List.range rgs.length) 1 = _
    rw [writeLoop_ok total rgs _ 1 (selOk_range h), filterMap_getElem_range]
  rw [e1, e2]
  show (numberFrom 1 (rgs.reverse.map (fun r => (r.1, pagesOf total r)))).map (fun w => w.2)
      = ((numberFrom 1 (rgs.map (fun r => (r.1, pagesOf total r)))).map (fun w => w.2)).reverse
  rw [numberFrom_snd, numberFrom_snd, List.map_reverse]

/-- Witness for C8 at the spec's example ranges
`[("Intro", 0, 4), ("Body", 5, 9)]` with 10 pages. -/
theorem write_chapters_order_witness :
    ((write_chapters [("Intro", 0, 4), ("Body", 5, 9)].reverse 10 none).2).map (fun w => w.2)
      = (((write_chapters [("Intro", 0, 4), ("Body", 5, 9)] 10 none).2).map
          (fun w => w.2)).reverse :=
  write_chapters_order [("Intro", 0, 4), ("Body", 5, 9)] 10 (by decide)

theorem writeLoop_append_err (total : Nat) (rgs : List (String × Int × Int)) :
    ∀ (sel₁ sel₂ : List Nat) (num : Nat) (ws : List (Nat × String × List Nat)),
      selOk total rgs sel₁ = true →
      writeLoop total rgs sel₂ (num + sel₁.length) = (.error (), ws) →
      writeLoop total rgs (sel₁ ++ sel₂) num
        = (.error (),
           numberFrom num ((sel₁.filterMap (fun i => rgs[i]?)).map
             (fun r => (r.1, pagesOf total r))) ++ ws) := by
  intro sel₁
  induction sel₁ with
  | nil =>
    intro sel₂ num ws _ h
    rw [List.nil_append]
    rw [show num + [].length = num from rfl] at h
    rw [h]
    rfl
  | cons idx rest ih =>
    intro sel₂ num ws hsel h
    have h1 : (match rgs[idx]? with
               | some r => rangeOk total r
               | none => false) = true :=
      List.all_eq_true.mp hsel idx (List.mem_cons_self _ _)
    have h2 : selOk total rgs rest = true :=
      List.all_eq_true.mpr (fun i hi => List.all_eq_true.mp hsel i (List.mem_cons_of_mem _ hi))
    cases hidx : rgs[idx]? with
    | none => rw [hidx] at h1; simp at h1
    | some r =>
      rw [hidx] at h1
      have h' : writeLoop total rgs sel₂ ((num + 1) + rest.length) = (.error (), ws) := by
        rw [show (num + 1) + rest.length = num + (idx :: rest).length by
          rw [List.length_cons]; omega]
        exact h
      show writeLoop total rgs (idx :: (rest ++ sel₂)) num = _
      unfold writeLoop
      rw [hidx]
      simp only [rangePages_eq_of_ok h1, ih sel₂ (num + 1) ws h2 h', List.filterMap_cons,
        hidx, List.map_cons]
      rfl

/-- C3 (amended): when a resolved range's page span reaches out of
`[0, total_pages - 1]`, the chapter writer does NOT skip it: the
batch aborts at that range with an uncaught exception, the ranges
before it having been written and every range after it left
unwritten. -/
theorem write_chapters_oob_aborts (total : Nat) (rs₁ : List (String × Int × Int))
    (bad : String × Int × Int) (rs₂ : List (String × Int × Int))
    (h1 : rangesOkB total rs₁ = true) (h2 : rangeOk total bad = false) :
    write_chapters (rs₁ ++ bad :: rs₂) total none
      = (.error (), numberFrom 1 (rs₁.map (fun r => (r.1, pagesOf total r)))) := by
  have hlen : (rs₁ ++ bad :: rs₂).length = rs₁.length + (rs₂.length + 1) := by
    rw [List.length_append, List.length_cons]
  show writeLoop total (rs₁ ++ bad :: rs₂) (List.range (rs₁ ++ bad :: rs₂).length) 1 = _
  rw [hlen, List.range_add]
  have hsel1 : selOk total (rs₁ ++ bad :: rs₂) (List.range rs₁.length) = true := by
    apply List.all_eq_true.mpr
    intro i hi
    have hi' : i < rs₁.length := List.mem_range.mp hi
    show (match (rs₁ ++ bad :: rs₂)[i]? with
          | some r => rangeOk total r
          | none => false) = true
    rw [List.getElem?_append_left hi', List.getElem?_eq_getElem hi']
    exact List.all_eq_true.mp h1 _ (List.getElem_mem hi')
  have hbad : (rs₁ ++ bad :: rs₂)[rs₁.length]? = some bad := by
    rw [List.getElem?_append_right (Nat.le_refl _), Nat.sub_self]
    exact List.getElem?_cons_zero
  have herr : ∀ num : Nat,
      writeLoop total (rs₁ ++ bad :: rs₂)
        ((List.range (rs₂.length + 1)).map (fun x => rs₁.length + x)) num
        = (.error (), []) := by
    intro num
    rw [List.range_succ_eq_map, List.map_cons]
    show writeLoop total (rs₁ ++ bad :: rs₂) ((rs₁.length + 0) :: _) num = _
    unfold writeLoop
    rw [show rs₁.length + 0 = rs₁.length from rfl]
    simp only [hbad, rangePages_eq_of_err h2]
  have happ := writeLoop_append_err total (rs₁ ++ bad :: rs₂)
    (List.range rs₁.length) ((List.range (rs₂.length + 1)).map (fun x => rs₁.length + x))
    1 [] hsel1 (by rw [List.length_range]; exact herr _)
  rw [happ, List.append_nil]
  congr 2
  have hcongr : (List.range rs₁.length).filterMap (fun i => (rs₁ ++ bad :: rs₂)[i]?)
      = (List.range rs₁.length).filterMap (fun i => rs₁[i]?) := by
    apply List.filterMap_congr
    intro i hi
    exact List.getElem?_append_left (List.mem_range.mp hi)
  rw [hcongr, filterMap_getElem_range]

/-- Counterexample to C3 as stated: ranges `[("A", 5, 6), ("B", 0, 1)]`
against a 3-page document.  Range "A" is out of bounds and range "B"
is perfectly in bounds, yet no file at all is written (in particular
none for "B") and the call raises instead of skipping "A" and
continuing. -/
theorem write_chapters_skip_cex :
    ((write_chapters [("A", 5, 6), ("B", 0, 1)] 3 none).2.map
        (fun w => w.2.1)).contains "B" = false ∧
    (write_chapters [("A", 5, 6), ("B", 0, 1)] 3 none).1 = .error () ∧
    rangeOk 3 ("B", 0, 1) = true := by
  refine ⟨rfl, rfl, rfl⟩

/-- Witness for the amended C3: a good range, then an out-of-bounds
one, then another good one, against 3 pages: only the first range is
written and the call aborts. -/
theorem write_chapters_oob_aborts_witness :
    write_chapters ([("A", 0, 1)] ++ ("X", 5, 6) :: [("B", 2, 2)]) 3 none
      = (.error (),
         numberFrom 1 ([(("A" : String), (0 : Int), (1 : Int))].map
           (fun r => (r.1, pagesOf 3 r)))) :=
  write_chapters_oob_aborts 3 [("A", 0, 1)] ("X", 5, 6) [("B", 2, 2)] rfl rfl

/-- C4 (amended): for a document whose outline yields zero usable
entries, `get_chapter_ranges` signals no error at all: it returns the
empty range list, and writing that list writes zero files and returns
count 0. -/
theorem empty_outline_no_error (outlines : List OutlineItem) (total : Nat)
    (h : extractRaw outlines = []) :
    get_chapter_ranges_of_outline outlines total = [] ∧
    write_chapters (get_chapter_ranges_of_outline outlines total) total none
      = (.ok 0, []) := by
  have h1 : get_chapter_ranges_of_outline outlines total = [] := by
    unfold get_chapter_ranges_of_outline get_chapter_ranges
    rw [h]
    rfl
  exact ⟨h1, by rw [h1]; rfl⟩

/-- Counterexample to C4 as stated: an outline whose three nodes are
all unusable (no title, empty title, unresolvable destination) yields
zero usable entries, yet the pipeline signals no
`NoOutlineError`/`NoChaptersError`-style failure: it returns the
empty range list normally and the writer returns `.ok 0`. -/
theorem empty_outline_cex :
    get_chapter_ranges_of_outline
        [⟨none, some 3⟩, ⟨some "", some 2⟩, ⟨some "T", none⟩] 7 = [] ∧
    (write_chapters
        (get_chapter_ranges_of_outline
          [⟨none, some 3⟩, ⟨some "", some 2⟩, ⟨some "T", none⟩] 7) 7 none)
      = (.ok 0, []) :=
  ⟨rfl, rfl⟩

/-- Witness for the amended C4 at a single node with an unresolvable
destination and a 5-page document. -/
theorem empty_outline_no_error_witness :
    get_chapter_ranges_of_outline [⟨some "A", none⟩] 5 = [] ∧
    write_chapters (get_chapter_ranges_of_outline [⟨some "A", none⟩] 5) 5 none
      = (.ok 0, []) :=
  empty_outline_no_error [⟨some "A", none⟩] 5 rfl

end PdfSplit
